import Mathlib

/-!
# The webhook relay of nylas-cli

A shallow embedding of the `webhook` command of `cli.go` (the closure assigned to
`webhook.Run`, lines 104-152): the relay opens `GET http://localhost:8080/stream`, wraps the
response body in a `bufio.Reader`, and loops over `reader.ReadString('\n')`, trimming each
line and either forwarding it with `http.Post`, printing it, or ignoring it.

Go strings and the upstream stream are lists of bytes.  The Go library functions the relay
calls (`strings.TrimSpace`, `strings.HasPrefix`, `strings.TrimPrefix`, `bufio.Reader.ReadString`,
`log.Fatalf`) are modelled after their documented behaviour.  The environment is explicit:
the transport is the script of results its `Read` calls return, and the outcome of every
`http.Post` is supplied by a forwarding environment.  What the relay does to the world is
recorded as a trace of effects.
-/

namespace NylasCli

/-- A byte of a Go string or of the upstream stream, as its value (below 256). -/
abbrev Byte := Nat

/-- The UTF-8 bytes of a string literal, used to write byte strings readably. -/
def utf8 (s : String) : List Byte :=
  (s.toList.flatMap String.utf8EncodeChar).map UInt8.toNat

/-! ## `strings` -/

/-- One-byte white space: the six ASCII characters `\t \n \v \f \r` and the blank, for which
`unicode.IsSpace` holds. -/
def isSpace1 (b : Nat) : Bool :=
  b == 9 || b == 10 || b == 11 || b == 12 || b == 13 || b == 32

/-- Two-byte white space: the UTF-8 encodings of U+0085 (NEL) and U+00A0 (NBSP). -/
def isSpace2 (b0 b1 : Nat) : Bool :=
  b0 == 0xC2 && (b1 == 0x85 || b1 == 0xA0)

/-- Three-byte white space: the UTF-8 encodings of U+1680, U+2000..U+200A, U+2028, U+2029,
U+202F, U+205F and U+3000, the remaining code points of `unicode.White_Space`. -/
def isSpace3 (b0 b1 b2 : Nat) : Bool :=
  (b0 == 0xE1 && b1 == 0x9A && b2 == 0x80) ||
  (b0 == 0xE2 && b1 == 0x80 &&
    ((decide (0x80 ≤ b2) && decide (b2 ≤ 0x8A)) || b2 == 0xA8 || b2 == 0xA9 || b2 == 0xAF)) ||
  (b0 == 0xE2 && b1 == 0x81 && b2 == 0x9F) ||
  (b0 == 0xE3 && b1 == 0x80 && b2 == 0x80)

/-- The left half of `strings.TrimSpace`: drop leading white-space runes.  A rune is decoded
from the front of the string; only a well-formed encoding of a white-space code point is
dropped (an ill-formed byte decodes to U+FFFD, which is not white space). -/
def strings.trimLeftSpace : List Byte → List Byte
  | [] => []
  | b0 :: t =>
    if isSpace1 b0 then trimLeftSpace t
    else match t with
      | [] => b0 :: t
      | b1 :: t1 =>
        if isSpace2 b0 b1 then trimLeftSpace t1
        else match t1 with
          | [] => b0 :: t
          | b2 :: t2 =>
            if isSpace3 b0 b1 b2 then trimLeftSpace t2 else b0 :: t

/-- The right half of `strings.TrimSpace`, on the reversed string: drop trailing white-space
runes.  The argument lists the bytes of the string last byte first. -/
def strings.trimRightSpaceRev : List Byte → List Byte
  | [] => []
  | c0 :: t =>
    if isSpace1 c0 then trimRightSpaceRev t
    else match t with
      | [] => c0 :: t
      | c1 :: t1 =>
        if isSpace2 c1 c0 then trimRightSpaceRev t1
        else match t1 with
          | [] => c0 :: t
          | c2 :: t2 =>
            if isSpace3 c2 c1 c0 then trimRightSpaceRev t2 else c0 :: t

/-- Drop trailing white-space runes. -/
def strings.trimRightSpace (s : List Byte) : List Byte :=
  (strings.trimRightSpaceRev s.reverse).reverse

/-- Go `strings.TrimSpace`: the string with all leading and trailing white space removed, as
defined by Unicode.  On the bytes of the string this removes, first from the front and then
from the back, every well-formed UTF-8 encoding of a white-space code point; bytes that
decode to no code point are not white space and stay. -/
def strings.TrimSpace (s : List Byte) : List Byte :=
  strings.trimRightSpace (strings.trimLeftSpace s)

/-- Go `strings.HasPrefix`. -/
def strings.HasPrefix (s pre : List Byte) : Bool :=
  pre.isPrefixOf s

/-- Go `strings.TrimPrefix`: `s` without the leading `pre`, or `s` itself when `s` does not
start with `pre`. -/
def strings.TrimPrefix (s pre : List Byte) : List Byte :=
  if strings.HasPrefix s pre then s.drop pre.length else s

/-! ## The transport and `bufio` -/

/-- The errors a read reports: `io.EOF`, `io.ErrNoProgress`, or any other error. -/
inductive IOError where
  | EOF
  | ErrNoProgress
  | other (code : Nat)
  deriving DecidableEq, Repr

/-- What one `Read` call on the response body returns: some bytes (possibly none), or an
error. -/
inductive ReadResult where
  | data (p : List Byte)
  | fail (e : IOError)
  deriving DecidableEq, Repr

/-- The response body, as the script of the results of its successive `Read` calls.  When
the script is used up the next `Read` does not return (the stream is open and silent). -/
abbrev Transport := List ReadResult

/-- Split a buffer after the first occurrence of `delim`: the bytes up to and including it,
and the bytes after it. -/
def splitAfter (delim : Byte) : List Byte → Option (List Byte × List Byte)
  | [] => none
  | b :: bs =>
    if b = delim then some ([b], bs)
    else match splitAfter delim bs with
      | some (line, rest) => some (b :: line, rest)
      | none => none

/-- A `bufio.Reader`: the bytes read from the transport and not yet handed out, and the rest
of the transport. -/
structure bufio.Reader where
  buf : List Byte
  rd : Transport
  deriving DecidableEq, Repr

/-- The result of `ReadString`: a line ending in the delimiter and no error; or the data
read before an error, and the error; or no result, when the transport never answers. -/
inductive bufio.ReadStringResult where
  | ok (line : List Byte) (r : bufio.Reader)
  | err (data : List Byte) (e : IOError) (r : bufio.Reader)
  | blocked
  deriving DecidableEq, Repr

/-- The number of empty reads in a row after which `bufio` gives up with
`io.ErrNoProgress`. -/
def bufio.maxConsecutiveEmptyReads : Nat := 100

/-- The loop of `ReadString` once the buffer `buf` holds no delimiter: read from the
transport into the buffer until the delimiter arrives or a read fails.  `i` counts the
empty reads still tolerated: after `maxConsecutiveEmptyReads` reads in a row that return
neither data nor an error, `bufio` reports `io.ErrNoProgress`. -/
def bufio.readFrom (delim : Byte) : List Byte → Nat → Transport → bufio.ReadStringResult
  | _, _, [] => .blocked
  | buf, _, .fail e :: rd => .err buf e ⟨[], rd⟩
  | buf, i, .data [] :: rd =>
    if i ≤ 1 then .err buf .ErrNoProgress ⟨[], rd⟩ else readFrom delim buf (i - 1) rd
  | buf, _, .data (b :: p) :: rd =>
    match splitAfter delim (buf ++ b :: p) with
    | some (line, rest) => .ok line ⟨rest, rd⟩
    | none => readFrom delim (buf ++ b :: p) bufio.maxConsecutiveEmptyReads rd

/-- Go `(*bufio.Reader).ReadString`: read until the first occurrence of `delim`, returning
the data up to and including the delimiter, however long; if an error is met before a
delimiter, return the data read before the error and the error itself.  The buffer is
searched first, and the transport is read only when the buffer holds no delimiter. -/
def bufio.Reader.ReadString (b : bufio.Reader) (delim : Byte) : bufio.ReadStringResult :=
  match splitAfter delim b.buf with
  | some (line, rest) => .ok line ⟨rest, b.rd⟩
  | none => bufio.readFrom delim b.buf bufio.maxConsecutiveEmptyReads b.rd

/-! ## Effects -/

/-- What `http.Post` returns: a response with some status, or a transport-level error. -/
inductive PostOutcome where
  | responded (status : Nat)
  | failed (code : Nat)
  deriving DecidableEq, Repr

/-- The messages of the `log.Fatalf` calls of `webhook.Run`. -/
inductive FatalMsg where
  | makingRequest (code : Nat)
  | non200 (status : Nat)
  | readingStream (e : IOError)
  deriving DecidableEq, Repr

/-- The effects of the relay on the world, one per library call that has one:
`fmt.Printf("Received message: %s\n", data)`, `fmt.Println("Received comment: " + text)`,
`fmt.Println("Server closed the connection.")`, `http.Post(url, contentType, body)` with the
outcome the environment gave it, `log.Fatalf`, and `resp.Body.Close()`. -/
inductive Effect where
  | printMessage (data : List Byte)
  | printComment (text : List Byte)
  | printClosed
  | post (url : String) (contentType : String) (body : List Byte) (outcome : PostOutcome)
  | fatal (msg : FatalMsg)
  | closeBody
  deriving DecidableEq, Repr

/-- An effect as the operator sees it: what is written to standard output (`fmt.Printf`,
`fmt.Println`) or to the log (`log.Fatalf`) is seen, a forward and the closing of the body
are not. -/
def Effect.console : Effect → Option Effect
  | .post _ _ _ _ => none
  | .closeBody => none
  | e => some e

/-- The frames of the specification: an event line, a comment line, the end of the
stream. -/
inductive Frame where
  | Data (payload : List Byte)
  | Comment (payload : List Byte)
  | End
  deriving DecidableEq, Repr

/-- The frame an effect is the handling of: a forwarded or printed message is a `Data`
frame, a printed comment a `Comment` frame, the completion notice the `End` frame. -/
def Effect.frame : Effect → Option Frame
  | .printMessage data => some (.Data data)
  | .post _ _ body _ => some (.Data body)
  | .printComment text => some (.Comment text)
  | .printClosed => some .End
  | .fatal _ => none
  | .closeBody => none

/-- The frames a trace of effects handles, in order. -/
def frames (es : List Effect) : List Frame :=
  es.filterMap Effect.frame

/-! ## The relay -/

/-- The prefix `"data: "` of an event line. -/
def dataPrefix : List Byte := [100, 97, 116, 97, 58, 32]

/-- The marker `":"` of a comment line. -/
def commentMark : List Byte := [58]

/-- The body of the loop after a successful read (`cli.go` lines 137-150).  `tunnelUrl` is
the `*string` of the `tunnel` flag (`none` for a nil pointer), `outcome` what `http.Post`
returns if it is called; the relay discards it. -/
def processLine (tunnelUrl : Option String) (outcome : PostOutcome) (line : List Byte) :
    List Effect :=
  let line := strings.TrimSpace line
  if strings.HasPrefix line dataPrefix then
    let data := strings.TrimPrefix line dataPrefix
    match tunnelUrl with
    | some url =>
      if url ≠ "" then [.post url "application/json" data outcome]
      else [.printMessage data]
    | none => [.printMessage data]
  else if strings.HasPrefix line commentMark then
    [.printComment (line.drop 1)]
  else []

/-- How a run of the relay stands: the function returned, the process was ended by
`log.Fatalf` (`os.Exit(1)`), or the relay waits in a `Read` that does not return. -/
inductive Exit where
  | returned
  | exited
  | blocked
  deriving DecidableEq, Repr

/-- The outcome of a run: the effects in order, how the run stands, and the part of the
transport script that was never read. -/
structure Result where
  effects : List Effect
  exit : Exit
  unread : Transport
  deriving DecidableEq, Repr

/-- The forwarding environment: the outcome of the `http.Post` issued for the `n`-th line
read, if one is issued. -/
abbrev ForwardEnv := Nat → PostOutcome

/-- The `for` loop of `webhook.Run` (`cli.go` lines 127-151).  `fuel` bounds the number of
iterations (`none` when it runs out), `n` counts the lines read so far. -/
def relayLoop (tunnelUrl : Option String) (env : ForwardEnv) :
    Nat → Nat → bufio.Reader → Option Result
  | 0, _, _ => none
  | fuel + 1, n, reader =>
    match reader.ReadString 10 with
    | .blocked => some ⟨[], .blocked, []⟩
    | .err _ e r =>
      if e = IOError.EOF then some ⟨[.printClosed], .returned, r.rd⟩
      else some ⟨[.fatal (.readingStream e)], .exited, r.rd⟩
    | .ok line r =>
      match relayLoop tunnelUrl env fuel (n + 1) r with
      | none => none
      | some res => some { res with effects := processLine tunnelUrl (env n) line ++ res.effects }

/-- The number of line feeds a transport delivers. -/
def lineFeeds : Transport → Nat
  | [] => 0
  | .data p :: t => p.count 10 + lineFeeds t
  | .fail _ :: t => lineFeeds t

/-- The relay loop over a fresh `bufio.NewReader(resp.Body)`, with fuel for one iteration
per line feed of the transport and one more. -/
def relay (tunnelUrl : Option String) (env : ForwardEnv) (body : Transport) : Option Result :=
  relayLoop tunnelUrl env (lineFeeds body + 1) 0 ⟨[], body⟩

/-- What `client.Do(req)` returns: an error, or a response with a status code and a body. -/
inductive Upstream where
  | refused (code : Nat)
  | response (status : Nat) (body : Transport)
  deriving DecidableEq, Repr

/-- The function `webhook.Run` (`cli.go` lines 104-152).  `http.NewRequest` cannot fail on
its constant arguments.  `defer resp.Body.Close()` runs when the function returns;
`log.Fatalf` ends the process with `os.Exit(1)`, which runs no deferred call. -/
def webhook.Run (tunnelUrl : Option String) (env : ForwardEnv) : Upstream → Option Result
  | .refused code => some ⟨[.fatal (.makingRequest code)], .exited, []⟩
  | .response status body =>
    if status ≠ 200 then some ⟨[.fatal (.non200 status)], .exited, body⟩
    else match relay tunnelUrl env body with
      | none => none
      | some res =>
        match res.exit with
        | .returned => some { res with effects := res.effects ++ [.closeBody] }
        | _ => some res


/-! ## Notions used to state the properties -/

/-- The last rune of the string, given last byte first, is white space. -/
def startsWithSpaceRev : List Byte → Bool
  | [] => false
  | c0 :: t =>
    isSpace1 c0 ||
      match t with
      | [] => false
      | c1 :: t1 =>
        isSpace2 c1 c0 ||
          match t1 with
          | [] => false
          | c2 :: _ => isSpace3 c2 c1 c0

/-- The string ends with a white-space rune. -/
def endsWithSpace (s : List Byte) : Bool :=
  startsWithSpaceRev s.reverse

/-- The bytes are the UTF-8 encoding of one white-space code point. -/
def isSpaceRune : List Byte → Bool
  | [b] => isSpace1 b
  | [b0, b1] => isSpace2 b0 b1
  | [b0, b1, b2] => isSpace3 b0 b1 b2
  | _ => false

/-- The complete lines of a byte stream: each ends with its line feed; the bytes after the
last line feed belong to no line. -/
def completeLines : List Byte → List (List Byte)
  | [] => []
  | b :: bs =>
    if b = 10 then [b] :: completeLines bs
    else match completeLines bs with
      | [] => []
      | l :: ls => (b :: l) :: ls

/-- The effects of handling the given lines in order, the first being the `n`-th line
read. -/
def linesEffects (tunnelUrl : Option String) (env : ForwardEnv) : Nat → List (List Byte) → List Effect
  | _, [] => []
  | n, l :: ls => processLine tunnelUrl (env n) l ++ linesEffects tunnelUrl env (n + 1) ls

/-- No run of empty reads in the chunks is long enough for `bufio` to give up, given that
`i` more empty reads are tolerated at the start. -/
def stallFreeFrom : Nat → List (List Byte) → Bool
  | _, [] => true
  | i, [] :: cs => decide (1 < i) && stallFreeFrom (i - 1) cs
  | _, (_ :: _) :: cs => stallFreeFrom bufio.maxConsecutiveEmptyReads cs

/-- The chunks never hold `maxConsecutiveEmptyReads` empty reads in a row. -/
def stallFree (chunks : List (List Byte)) : Bool :=
  stallFreeFrom bufio.maxConsecutiveEmptyReads chunks

/-- The transport that delivers the given chunks, one per read. -/
def dataReads (chunks : List (List Byte)) : Transport :=
  chunks.map ReadResult.data

/-- A `Data` or `Comment` frame. -/
def Frame.isLine : Frame → Bool
  | .Data _ => true
  | .Comment _ => true
  | .End => false

/-- What the loop does when the next read is the head of `tail`, the buffer holding no
complete line: it waits if the script is used up, and stops on a failed read. -/
def tailResult : Transport → Option Result
  | [] => some ⟨[], .blocked, []⟩
  | .fail e :: post =>
    if e = IOError.EOF then some ⟨[.printClosed], .returned, post⟩
    else some ⟨[.fatal (.readingStream e)], .exited, post⟩
  | .data _ :: _ => none

/-- What the operator sees of a trace, in order. -/
def consoleOutput (es : List Effect) : List Effect :=
  es.filterMap Effect.console

/-- The outbound requests of a trace: URL, content type and body of each `http.Post`. -/
def postsOf (es : List Effect) : List (String × String × List Byte) :=
  es.filterMap fun e =>
    match e with
    | .post url contentType body _ => some (url, contentType, body)
    | _ => none

/-- The event payloads reported on the console. -/
def printedOf (es : List Effect) : List (List Byte) :=
  es.filterMap fun e =>
    match e with
    | .printMessage data => some data
    | _ => none

/-- The payloads of the `Data` frames. -/
def dataOf (fs : List Frame) : List (List Byte) :=
  fs.filterMap fun f =>
    match f with
    | .Data d => some d
    | _ => none

/-- How often the response body is closed. -/
def closes (es : List Effect) : Nat :=
  es.count Effect.closeBody

/-- The effects with which the loop ends: none (it waits), the completion notice, or the
report of a read error. -/
def isLoopEnd (es : List Effect) : Prop :=
  es = [] ∨ es = [Effect.printClosed] ∨ ∃ e, e ≠ IOError.EOF ∧ es = [Effect.fatal (.readingStream e)]

/-- The frame of a complete line as the specification words it (section 4.1, step 2): trim
leading and trailing white space; prefix `data: ` gives a `Data` frame with the remainder as
payload, prefix `:` a `Comment` frame with the remainder as payload, anything else no
frame.  It is stated on the line alone, not on what the relay does with it. -/
def specFrame (line : List Byte) : Option Frame :=
  let t := strings.TrimSpace line
  if dataPrefix.isPrefixOf t then some (.Data (t.drop dataPrefix.length))
  else if commentMark.isPrefixOf t then some (.Comment (t.drop commentMark.length))
  else none

/-- Go `url.Parse` fails with "missing protocol scheme" on a URL that starts with a colon;
`http.Post` then returns the error of `http.NewRequest` and sends nothing. -/
def urlMissingScheme (url : String) : Bool :=
  url.toList.head? == some ':'

/-- The calls of `http.Post` that get as far as a request: not those whose URL has no
scheme. -/
def requestsOf (es : List Effect) : List (String × String × List Byte) :=
  (postsOf es).filter fun r => !urlMissingScheme r.1

/-! ## White space -/

theorem isSpace2_snd {b0 b1 : Nat} (h : isSpace2 b0 b1 = true) :
    b0 = 0xC2 ∧ 0x80 ≤ b1 := by
  simp only [isSpace2, Bool.and_eq_true, Bool.or_eq_true, beq_iff_eq] at h
  omega

theorem isSpace3_snd {b0 b1 b2 : Nat} (h : isSpace3 b0 b1 b2 = true) :
    0xE1 ≤ b0 ∧ 0x80 ≤ b1 ∧ b1 ≤ 0x9A ∧ 0x80 ≤ b2 := by
  simp only [isSpace3, Bool.and_eq_true, Bool.or_eq_true, beq_iff_eq, decide_eq_true_eq] at h
  omega

theorem isSpace1_lt {b : Nat} (h : isSpace1 b = true) : b < 0x80 := by
  simp only [isSpace1, Bool.or_eq_true, beq_iff_eq] at h
  omega

theorem isSpace1_of_ge {b : Nat} (h : 0x80 ≤ b) : isSpace1 b = false := by
  cases hb : isSpace1 b
  · rfl
  · have := isSpace1_lt hb; omega

theorem isSpace2_of_lt (b0 b1 : Nat) (h : b0 < 0xC2) : isSpace2 b0 b1 = false := by
  cases hb : isSpace2 b0 b1
  · rfl
  · have := isSpace2_snd hb; omega

theorem isSpace2_of_snd_lt (b0 b1 : Nat) (h : b1 < 0x80) : isSpace2 b0 b1 = false := by
  cases hb : isSpace2 b0 b1
  · rfl
  · have := isSpace2_snd hb; omega

theorem isSpace3_of_lt (b0 b1 b2 : Nat) (h : b0 < 0xE1) : isSpace3 b0 b1 b2 = false := by
  cases hb : isSpace3 b0 b1 b2
  · rfl
  · have := isSpace3_snd hb; omega

theorem isSpace3_of_thd_lt (b0 b1 b2 : Nat) (h : b2 < 0x80) :
    isSpace3 b0 b1 b2 = false := by
  cases hb : isSpace3 b0 b1 b2
  · rfl
  · have := isSpace3_snd hb; omega

theorem trimLeftSpace_cons1 {b : Nat} (t : List Byte) (h : isSpace1 b = true) :
    strings.trimLeftSpace (b :: t) = strings.trimLeftSpace t := by
  rw [strings.trimLeftSpace.eq_def]; simp [h]

theorem trimLeftSpace_cons2 {b0 b1 : Nat} (t : List Byte) (h1 : isSpace1 b0 = false)
    (h2 : isSpace2 b0 b1 = true) :
    strings.trimLeftSpace (b0 :: b1 :: t) = strings.trimLeftSpace t := by
  rw [strings.trimLeftSpace.eq_def]; simp [h1, h2]

theorem trimLeftSpace_cons3 {b0 b1 b2 : Nat} (t : List Byte) (h1 : isSpace1 b0 = false)
    (h2 : isSpace2 b0 b1 = false) (h3 : isSpace3 b0 b1 b2 = true) :
    strings.trimLeftSpace (b0 :: b1 :: b2 :: t) = strings.trimLeftSpace t := by
  rw [strings.trimLeftSpace.eq_def]; simp [h1, h2, h3]

theorem trimLeftSpace_stop3 {b0 b1 b2 : Nat} (t : List Byte) (h1 : isSpace1 b0 = false)
    (h2 : isSpace2 b0 b1 = false) (h3 : isSpace3 b0 b1 b2 = false) :
    strings.trimLeftSpace (b0 :: b1 :: b2 :: t) = b0 :: b1 :: b2 :: t := by
  rw [strings.trimLeftSpace.eq_def]; simp [h1, h2, h3]

theorem trimLeftSpace_stop2 {b0 b1 : Nat} (h1 : isSpace1 b0 = false)
    (h2 : isSpace2 b0 b1 = false) :
    strings.trimLeftSpace [b0, b1] = [b0, b1] := by
  rw [strings.trimLeftSpace.eq_def]; simp [h1, h2]

theorem trimLeftSpace_stop1 {b0 : Nat} (h1 : isSpace1 b0 = false) :
    strings.trimLeftSpace [b0] = [b0] := by
  rw [strings.trimLeftSpace.eq_def]; simp [h1]

theorem trimLeftSpace_d (t : List Byte) : strings.trimLeftSpace (100 :: t) = 100 :: t := by
  rcases t with _ | ⟨b1, _ | ⟨b2, t2⟩⟩
  · exact trimLeftSpace_stop1 (by decide)
  · exact trimLeftSpace_stop2 (by decide) (isSpace2_of_lt 100 _ (by norm_num))
  · exact trimLeftSpace_stop3 _ (by decide) (isSpace2_of_lt 100 _ (by norm_num))
      (isSpace3_of_lt 100 _ _ (by norm_num))

theorem trimRightSpaceRev_cons1 {c : Nat} (t : List Byte) (h : isSpace1 c = true) :
    strings.trimRightSpaceRev (c :: t) = strings.trimRightSpaceRev t := by
  rw [strings.trimRightSpaceRev.eq_def]; simp [h]

theorem trimRightSpaceRev_cons2 {c0 c1 : Nat} (t : List Byte) (h1 : isSpace1 c0 = false)
    (h2 : isSpace2 c1 c0 = true) :
    strings.trimRightSpaceRev (c0 :: c1 :: t) = strings.trimRightSpaceRev t := by
  rw [strings.trimRightSpaceRev.eq_def]; simp [h1, h2]

theorem trimRightSpaceRev_cons3 {c0 c1 c2 : Nat} (t : List Byte) (h1 : isSpace1 c0 = false)
    (h2 : isSpace2 c1 c0 = false) (h3 : isSpace3 c2 c1 c0 = true) :
    strings.trimRightSpaceRev (c0 :: c1 :: c2 :: t) = strings.trimRightSpaceRev t := by
  rw [strings.trimRightSpaceRev.eq_def]; simp [h1, h2, h3]

/-- Appending the line feed to a string changes its left trim only by that line feed, which
is itself trimmed when nothing else is left. -/
theorem trimLeftSpace_append_lf (s : List Byte) :
    strings.trimLeftSpace (s ++ [10]) =
      if strings.trimLeftSpace s = [] then [] else strings.trimLeftSpace s ++ [10] := by
  induction s using strings.trimLeftSpace.induct with
  | case1 => simp [strings.trimLeftSpace, isSpace1]
  | case2 b t h ih =>
    rw [List.cons_append, trimLeftSpace_cons1 _ h, trimLeftSpace_cons1 _ h]; exact ih
  | case3 b h =>
    have h1 : isSpace1 b = false := by simpa using h
    rw [trimLeftSpace_stop1 h1]
    simpa using trimLeftSpace_stop2 h1 (isSpace2_of_snd_lt b 10 (by norm_num))
  | case4 b h b1 t h2 ih =>
    have h1 : isSpace1 b = false := by simpa using h
    rw [List.cons_append, List.cons_append, trimLeftSpace_cons2 _ h1 h2,
      trimLeftSpace_cons2 _ h1 h2]
    exact ih
  | case5 b h b1 h2 =>
    have h1 : isSpace1 b = false := by simpa using h
    have h2' : isSpace2 b b1 = false := by simpa using h2
    rw [trimLeftSpace_stop2 h1 h2']
    simpa using trimLeftSpace_stop3 [] h1 h2' (isSpace3_of_thd_lt b b1 10 (by norm_num))
  | case6 b h b1 h2 b2 t h3 ih =>
    have h1 : isSpace1 b = false := by simpa using h
    have h2' : isSpace2 b b1 = false := by simpa using h2
    rw [List.cons_append, List.cons_append, List.cons_append, trimLeftSpace_cons3 _ h1 h2' h3,
      trimLeftSpace_cons3 _ h1 h2' h3]
    exact ih
  | case7 b h b1 h2 b2 t h3 =>
    have h1 : isSpace1 b = false := by simpa using h
    have h2' : isSpace2 b b1 = false := by simpa using h2
    have h3' : isSpace3 b b1 b2 = false := by simpa using h3
    rw [List.cons_append, List.cons_append, List.cons_append, trimLeftSpace_stop3 _ h1 h2' h3',
      trimLeftSpace_stop3 _ h1 h2' h3']
    simp

theorem trimRightSpace_append_lf (s : List Byte) :
    strings.trimRightSpace (s ++ [10]) = strings.trimRightSpace s := by
  simp only [strings.trimRightSpace, List.reverse_append, List.reverse_cons, List.reverse_nil,
    List.nil_append, List.singleton_append]
  rw [trimRightSpaceRev_cons1 _ (by decide)]

/-- The line feed that ends a line is trimmed with the rest of its white space. -/
theorem TrimSpace_append_lf (s : List Byte) :
    strings.TrimSpace (s ++ [10]) = strings.TrimSpace s := by
  unfold strings.TrimSpace
  rw [trimLeftSpace_append_lf]
  split
  · next h => rw [h]
  · exact trimRightSpace_append_lf _

theorem startsWithSpaceRev_trimRightSpaceRev (x : List Byte) :
    startsWithSpaceRev (strings.trimRightSpaceRev x) = false := by
  induction x using strings.trimRightSpaceRev.induct with
  | case1 => simp [strings.trimRightSpaceRev, startsWithSpaceRev]
  | case2 b t h ih => rw [trimRightSpaceRev_cons1 _ h]; exact ih
  | case3 b h => simp [strings.trimRightSpaceRev, h, startsWithSpaceRev]
  | case4 b h b1 t h2 ih =>
    rw [trimRightSpaceRev_cons2 _ (by simpa using h) h2]; exact ih
  | case5 b h b1 h2 => simp [strings.trimRightSpaceRev, h, h2, startsWithSpaceRev]
  | case6 b h b1 h2 b2 t h3 ih =>
    rw [trimRightSpaceRev_cons3 _ (by simpa using h) (by simpa using h2) h3]; exact ih
  | case7 b h b1 h2 b2 t h3 => simp [strings.trimRightSpaceRev, h, h2, h3, startsWithSpaceRev]

theorem trimRightSpaceRev_of_not_starts {x : List Byte} (h : startsWithSpaceRev x = false) :
    strings.trimRightSpaceRev x = x := by
  rcases x with _ | ⟨c0, _ | ⟨c1, _ | ⟨c2, t⟩⟩⟩ <;>
    simp_all [strings.trimRightSpaceRev, startsWithSpaceRev]

theorem startsWithSpaceRev_append {x : List Byte} (y : List Byte)
    (h : startsWithSpaceRev x = true) : startsWithSpaceRev (x ++ y) = true := by
  rcases x with _ | ⟨c0, _ | ⟨c1, _ | ⟨c2, t⟩⟩⟩
  · simp [startsWithSpaceRev] at h
  · simp only [startsWithSpaceRev, Bool.or_false] at h
    cases y <;> simp [startsWithSpaceRev, h]
  · simp only [startsWithSpaceRev, Bool.or_false, Bool.or_eq_true] at h
    rcases h with h | h <;> cases y <;> simp [startsWithSpaceRev, h]
  · simpa [startsWithSpaceRev] using h

theorem endsWithSpace_TrimSpace (s : List Byte) : endsWithSpace (strings.TrimSpace s) = false := by
  simp [endsWithSpace, strings.TrimSpace, strings.trimRightSpace,
    startsWithSpaceRev_trimRightSpaceRev]

theorem endsWithSpace_append {p : List Byte} (a : List Byte) (h : endsWithSpace p = true) :
    endsWithSpace (a ++ p) = true := by
  simp only [endsWithSpace, List.reverse_append] at *
  exact startsWithSpaceRev_append _ h

theorem startsWithSpaceRev_payload {x : List Byte} (hx : x ≠ [])
    (h : startsWithSpaceRev x = false) :
    startsWithSpaceRev (x ++ dataPrefix.reverse) = false := by
  rcases x with _ | ⟨c0, _ | ⟨c1, _ | ⟨c2, t⟩⟩⟩
  · exact absurd rfl hx
  · simp only [startsWithSpaceRev, Bool.or_false] at h
    simp [startsWithSpaceRev, dataPrefix, h, isSpace2_of_lt 32 c0 (by norm_num),
      isSpace3_of_lt 58 32 c0 (by norm_num)]
  · simp only [startsWithSpaceRev, Bool.or_false, Bool.or_eq_false_iff] at h
    simp [startsWithSpaceRev, dataPrefix, h, isSpace3_of_lt 32 c1 c0 (by norm_num)]
  · simpa [startsWithSpaceRev] using h

/-- A line `data: p` whose payload `p` is not empty and does not end in white space is
trimmed of its line feed only. -/
theorem TrimSpace_dataLine {p : List Byte} (hp : p ≠ []) (hs : endsWithSpace p = false) :
    strings.TrimSpace (dataPrefix ++ p ++ [10]) = dataPrefix ++ p := by
  rw [TrimSpace_append_lf]
  unfold strings.TrimSpace
  have hl : strings.trimLeftSpace (dataPrefix ++ p) = dataPrefix ++ p := by
    simpa [dataPrefix] using trimLeftSpace_d (97 :: 116 :: 97 :: 58 :: 32 :: p)
  rw [hl]
  unfold strings.trimRightSpace
  rw [List.reverse_append,
    trimRightSpaceRev_of_not_starts (startsWithSpaceRev_payload (by simpa using hp) hs)]
  simp

theorem trimRightSpace_append_rune (x : List Byte) {r : List Byte} (h : isSpaceRune r = true) :
    strings.trimRightSpace (x ++ r) = strings.trimRightSpace x := by
  unfold strings.trimRightSpace
  rcases r with _ | ⟨b0, _ | ⟨b1, _ | ⟨b2, _ | ⟨b3, t⟩⟩⟩⟩
  · simp [isSpaceRune] at h
  · simp only [isSpaceRune] at h
    simp only [List.reverse_append, List.reverse_cons, List.reverse_nil, List.nil_append,
      List.singleton_append]
    rw [trimRightSpaceRev_cons1 _ h]
  · simp only [isSpaceRune] at h
    have := isSpace2_snd h
    simp only [List.reverse_append, List.reverse_cons, List.reverse_nil, List.nil_append,
      List.singleton_append, List.cons_append]
    rw [trimRightSpaceRev_cons2 _ (isSpace1_of_ge this.2) h]
  · simp only [isSpaceRune] at h
    have := isSpace3_snd h
    simp only [List.reverse_append, List.reverse_cons, List.reverse_nil, List.nil_append,
      List.singleton_append, List.cons_append]
    rw [trimRightSpaceRev_cons3 _ (isSpace1_of_ge this.2.2.2)
      (isSpace2_of_lt _ _ (by omega)) h]
  · simp [isSpaceRune] at h

theorem trimRightSpace_append_runes (x : List Byte) (rs : List (List Byte))
    (h : ∀ r ∈ rs, isSpaceRune r = true) :
    strings.trimRightSpace (x ++ rs.flatten) = strings.trimRightSpace x := by
  induction rs using List.reverseRecOn with
  | nil => simp
  | append_singleton rs r ih =>
    rw [List.flatten_append, ← List.append_assoc]
    simp only [List.flatten_cons, List.flatten_nil, List.append_nil]
    rw [trimRightSpace_append_rune _ (h r (by simp))]
    exact ih (fun r hr => h r (by simp [hr]))

/-- A line `data: ` followed by white space only is trimmed to `data:`. -/
theorem TrimSpace_dataPrefix_space (rs : List (List Byte)) (h : ∀ r ∈ rs, isSpaceRune r = true) :
    strings.TrimSpace (dataPrefix ++ rs.flatten) = [100, 97, 116, 97, 58] := by
  unfold strings.TrimSpace
  have hl : strings.trimLeftSpace (dataPrefix ++ rs.flatten) = dataPrefix ++ rs.flatten := by
    simpa [dataPrefix] using trimLeftSpace_d (97 :: 116 :: 97 :: 58 :: 32 :: rs.flatten)
  rw [hl, trimRightSpace_append_runes _ _ h]
  decide

/-! ## The loop body -/

theorem processLine_append_lf (tunnelUrl : Option String) (o : PostOutcome) (s : List Byte) :
    processLine tunnelUrl o (s ++ [10]) = processLine tunnelUrl o s := by
  simp only [processLine, TrimSpace_append_lf]

theorem frames_processLine (tunnelUrl : Option String) (o : PostOutcome) (line : List Byte) :
    frames (processLine tunnelUrl o line) =
      if strings.HasPrefix (strings.TrimSpace line) dataPrefix then
        [Frame.Data (strings.TrimPrefix (strings.TrimSpace line) dataPrefix)]
      else if strings.HasPrefix (strings.TrimSpace line) commentMark then
        [Frame.Comment ((strings.TrimSpace line).drop 1)]
      else [] := by
  unfold processLine
  simp only []
  split
  · rcases tunnelUrl with _ | url
    · simp [frames, Effect.frame]
    · by_cases hu : url = "" <;> simp [frames, Effect.frame, hu]
  · split <;> simp [frames, Effect.frame]

theorem processLine_length_le (tunnelUrl : Option String) (o : PostOutcome) (line : List Byte) :
    (processLine tunnelUrl o line).length ≤ 1 := by
  unfold processLine
  simp only []
  split
  · rcases tunnelUrl with _ | url
    · simp
    · by_cases hu : url = "" <;> simp [hu]
  · split <;> simp

theorem frames_length (es : List Effect) : (frames es).length ≤ es.length := by
  simpa [frames] using List.length_filterMap_le Effect.frame es

/-! ## Reading lines -/

theorem splitAfter_eq_none {d : Byte} {s : List Byte} : splitAfter d s = none ↔ d ∉ s := by
  induction s with
  | nil => simp [splitAfter]
  | cons b bs ih =>
    by_cases hb : b = d
    · simp [splitAfter, hb]
    · have hb' : ¬ d = b := fun h => hb h.symm
      cases hs : splitAfter d bs with
      | none => simp [splitAfter, hb, hb', hs, ih.mp hs]
      | some lr =>
        have : d ∈ bs := by
          by_contra hn
          rw [ih.mpr hn] at hs
          exact Option.noConfusion hs
        simp [splitAfter, hb, hs, this]

theorem splitAfter_cons_ne {d b : Byte} (bs : List Byte) (hb : ¬ b = d) :
    splitAfter d (b :: bs) = (splitAfter d bs).map (fun lr => (b :: lr.1, lr.2)) := by
  rw [splitAfter, if_neg hb]
  cases splitAfter d bs with
  | none => rfl
  | some lr => rfl

theorem splitAfter_cons_eq (d : Byte) (bs : List Byte) :
    splitAfter d (d :: bs) = some ([d], bs) := by
  rw [splitAfter, if_pos rfl]

theorem splitAfter_append_some {d : Byte} {s l r : List Byte} (t : List Byte)
    (h : splitAfter d s = some (l, r)) : splitAfter d (s ++ t) = some (l, r ++ t) := by
  induction s generalizing l r with
  | nil => simp [splitAfter] at h
  | cons b bs ih =>
    by_cases hb : b = d
    · subst hb
      rw [splitAfter_cons_eq] at h
      simp only [Option.some.injEq, Prod.mk.injEq] at h
      rw [List.cons_append, splitAfter_cons_eq, ← h.1, ← h.2]
    · rw [splitAfter_cons_ne _ hb] at h
      rw [List.cons_append, splitAfter_cons_ne _ hb]
      cases hs : splitAfter d bs with
      | none => simp [hs] at h
      | some lr =>
        obtain ⟨l0, r0⟩ := lr
        simp only [hs, Option.map_some', Option.some.injEq, Prod.mk.injEq] at h
        rw [ih hs, ← h.1, ← h.2]
        rfl

theorem splitAfter_count {d : Byte} {s l r : List Byte} (h : splitAfter d s = some (l, r)) :
    s.count d = r.count d + 1 := by
  induction s generalizing l r with
  | nil => simp [splitAfter] at h
  | cons b bs ih =>
    by_cases hb : b = d
    · subst hb
      rw [splitAfter_cons_eq] at h
      simp only [Option.some.injEq, Prod.mk.injEq] at h
      simp [h.2]
    · rw [splitAfter_cons_ne _ hb] at h
      cases hs : splitAfter d bs with
      | none => simp [hs] at h
      | some lr =>
        obtain ⟨l0, r0⟩ := lr
        simp only [hs, Option.map_some', Option.some.injEq, Prod.mk.injEq] at h
        rw [← h.2, ← ih hs]
        simp [List.count_cons, hb]

theorem completeLines_eq (s : List Byte) :
    completeLines s =
      match splitAfter 10 s with
      | none => []
      | some (l, r) => l :: completeLines r := by
  induction s with
  | nil => simp [completeLines, splitAfter]
  | cons b bs ih =>
    by_cases hb : b = 10
    · simp [completeLines, splitAfter, hb]
    · simp only [completeLines, hb, if_false, splitAfter]
      rw [ih]
      cases splitAfter 10 bs with
      | none => rfl
      | some lr => rfl

theorem completeLines_of_none {s : List Byte} (h : splitAfter 10 s = none) :
    completeLines s = [] := by
  rw [completeLines_eq, h]

theorem completeLines_of_some {s l r : List Byte} (h : splitAfter 10 s = some (l, r)) :
    completeLines s = l :: completeLines r := by
  rw [completeLines_eq, h]

/-- Reading from chunks that do not stall: the reader hands out the first line of the
stream `buf ++ chunks.flatten` and keeps the rest, or, when the stream holds no line feed,
uses the chunks up and goes on to the read after them. -/
theorem readFrom_chunks (d : Byte) (tail : Transport) (chunks : List (List Byte)) :
    ∀ (buf : List Byte) (i : Nat), splitAfter d buf = none → stallFreeFrom i chunks = true →
      (∀ l r, splitAfter d (buf ++ chunks.flatten) = some (l, r) →
        ∃ r0 chunks0, bufio.readFrom d buf i (dataReads chunks ++ tail)
            = .ok l ⟨r0, dataReads chunks0 ++ tail⟩
          ∧ r0 ++ chunks0.flatten = r ∧ stallFree chunks0 = true) ∧
      (splitAfter d (buf ++ chunks.flatten) = none →
        ∃ j, bufio.readFrom d buf i (dataReads chunks ++ tail)
            = bufio.readFrom d (buf ++ chunks.flatten) j tail) := by
  induction chunks with
  | nil =>
    intro buf i hb _
    constructor
    · intro l r h
      simp [hb] at h
    · intro _
      exact ⟨i, by simp [dataReads]⟩
  | cons c cs ih =>
    intro buf i hb hs
    rcases c with _ | ⟨b, p⟩
    · simp only [stallFreeFrom, Bool.and_eq_true, decide_eq_true_eq] at hs
      have hi : ¬ i ≤ 1 := by omega
      have hr : bufio.readFrom d buf i (dataReads ([] :: cs) ++ tail)
          = bufio.readFrom d buf (i - 1) (dataReads cs ++ tail) := by
        simp [dataReads, bufio.readFrom, hi]
      rw [hr]
      simpa using ih buf (i - 1) hb hs.2
    · simp only [stallFreeFrom] at hs
      have hflat : buf ++ ((b :: p) :: cs).flatten = (buf ++ b :: p) ++ cs.flatten := by simp
      rw [hflat]
      cases hsp : splitAfter d (buf ++ b :: p) with
      | some lr =>
        obtain ⟨line, rest⟩ := lr
        have hr : bufio.readFrom d buf i (dataReads ((b :: p) :: cs) ++ tail)
            = .ok line ⟨rest, dataReads cs ++ tail⟩ := by
          simp [dataReads, bufio.readFrom, hsp]
        rw [hr, splitAfter_append_some _ hsp]
        constructor
        · intro l r h
          simp only [Option.some.injEq, Prod.mk.injEq] at h
          exact ⟨rest, cs, by rw [h.1], h.2, hs⟩
        · intro h
          simp at h
      | none =>
        have hr : bufio.readFrom d buf i (dataReads ((b :: p) :: cs) ++ tail)
            = bufio.readFrom d (buf ++ b :: p) bufio.maxConsecutiveEmptyReads
                (dataReads cs ++ tail) := by
          simp [dataReads, bufio.readFrom, hsp]
        rw [hr]
        exact ih (buf ++ b :: p) _ hsp hs

theorem readFrom_tail (d : Byte) (x : List Byte) (j : Nat) (tail : Transport)
    (tunnelUrl : Option String) (env : ForwardEnv) (fuel n : Nat) (res : Result)
    (ht : tailResult tail = some res) :
    (match bufio.readFrom d x j tail with
      | .blocked => some (⟨[], .blocked, []⟩ : Result)
      | .err _ e r =>
        if e = IOError.EOF then some ⟨[.printClosed], .returned, r.rd⟩
        else some ⟨[.fatal (.readingStream e)], .exited, r.rd⟩
      | .ok line r =>
        match relayLoop tunnelUrl env fuel (n + 1) r with
        | none => none
        | some res => some { res with effects := processLine tunnelUrl (env n) line ++ res.effects })
      = some res := by
  rcases tail with _ | ⟨hd, post⟩
  · simpa [tailResult, bufio.readFrom] using ht
  · rcases hd with p | e
    · simp [tailResult] at ht
    · by_cases he : e = IOError.EOF
      · simpa [tailResult, bufio.readFrom, he] using ht
      · simpa [tailResult, bufio.readFrom, he] using ht

/-! ## The loop over chunks that do not stall -/

theorem linesEffects_cons (tunnelUrl : Option String) (env : ForwardEnv) (n : Nat)
    (l : List Byte) (ls : List (List Byte)) :
    linesEffects tunnelUrl env n (l :: ls)
      = processLine tunnelUrl (env n) l ++ linesEffects tunnelUrl env (n + 1) ls := rfl

/-- The loop over a transport that delivers the stream in chunks that do not stall and then
ends as `tail` does: the complete lines of the stream are handled in order, then the loop
ends as the tail makes it. -/
theorem relayLoop_chunks (tunnelUrl : Option String) (env : ForwardEnv) (tail : Transport)
    (res : Result) (ht : tailResult tail = some res) :
    ∀ (fuel n : Nat) (buf : List Byte) (chunks : List (List Byte)),
      stallFree chunks = true → (buf ++ chunks.flatten).count 10 < fuel →
      relayLoop tunnelUrl env fuel n ⟨buf, dataReads chunks ++ tail⟩
        = some ⟨linesEffects tunnelUrl env n (completeLines (buf ++ chunks.flatten))
                  ++ res.effects, res.exit, res.unread⟩ := by
  intro fuel
  induction fuel with
  | zero => intro n buf chunks _ h; omega
  | succ fuel ih =>
    intro n buf chunks hs hc
    rw [relayLoop]
    unfold bufio.Reader.ReadString
    cases hb : splitAfter 10 buf with
    | some lr =>
      obtain ⟨l, r⟩ := lr
      have hsp := splitAfter_append_some chunks.flatten hb
      have hcount := splitAfter_count hsp
      simp only []
      rw [ih (n + 1) r chunks hs (by omega), completeLines_of_some hsp, linesEffects_cons]
      simp
    | none =>
      simp only []
      obtain ⟨hsome, hnone⟩ := readFrom_chunks 10 tail chunks buf _ hb hs
      cases hsp : splitAfter 10 (buf ++ chunks.flatten) with
      | some lr =>
        obtain ⟨l, r⟩ := lr
        obtain ⟨r0, chunks0, hread, hr, hs0⟩ := hsome l r hsp
        have hcount := splitAfter_count hsp
        rw [hread]
        simp only []
        rw [ih (n + 1) r0 chunks0 hs0 (by rw [hr]; omega), completeLines_of_some hsp,
          linesEffects_cons, hr]
        simp
      | none =>
        obtain ⟨j, hread⟩ := hnone hsp
        rw [hread, readFrom_tail 10 _ j tail tunnelUrl env fuel n res ht,
          completeLines_of_none hsp]
        simp [linesEffects]

theorem lineFeeds_append (a b : Transport) : lineFeeds (a ++ b) = lineFeeds a + lineFeeds b := by
  induction a with
  | nil => simp [lineFeeds]
  | cons x a ih =>
    cases x with
    | data p => simp [lineFeeds, ih, Nat.add_assoc]
    | fail e => simp [lineFeeds, ih]

theorem lineFeeds_dataReads (chunks : List (List Byte)) :
    lineFeeds (dataReads chunks) = chunks.flatten.count 10 := by
  induction chunks with
  | nil => simp [lineFeeds, dataReads]
  | cons c cs ih =>
    simp only [dataReads, List.map_cons, lineFeeds, List.flatten_cons, List.count_append]
    rw [← ih]; rfl

/-- The relay over a transport that delivers the stream in chunks that do not stall and
then ends as `tail` does. -/
theorem relay_chunks (tunnelUrl : Option String) (env : ForwardEnv) (chunks : List (List Byte))
    (tail : Transport) (res : Result) (hs : stallFree chunks = true)
    (ht : tailResult tail = some res) :
    relay tunnelUrl env (dataReads chunks ++ tail)
      = some ⟨linesEffects tunnelUrl env 0 (completeLines chunks.flatten) ++ res.effects,
          res.exit, res.unread⟩ := by
  have h := relayLoop_chunks tunnelUrl env tail res ht
    (lineFeeds (dataReads chunks ++ tail) + 1) 0 [] chunks hs
    (by rw [lineFeeds_append, lineFeeds_dataReads]; simp; omega)
  simpa [relay] using h

theorem stallFreeFrom_of_nonempty (chunks : List (List Byte)) (h : ∀ c ∈ chunks, c ≠ []) :
    ∀ i, stallFreeFrom i chunks = true := by
  induction chunks with
  | nil => intro i; rfl
  | cons c cs ih =>
    intro i
    rcases c with _ | ⟨b, p⟩
    · exact absurd rfl (h [] (by simp))
    · simpa [stallFreeFrom] using ih (fun c hc => h c (by simp [hc])) _

/-- Chunks that are all non-empty do not stall. -/
theorem stallFree_of_nonempty (chunks : List (List Byte)) (h : ∀ c ∈ chunks, c ≠ []) :
    stallFree chunks = true :=
  stallFreeFrom_of_nonempty chunks h _

/-! ## The loop over any transport -/

theorem readFrom_ok_count (rd : Transport) :
    ∀ (buf : List Byte) (i : Nat) (l : List Byte) (r : bufio.Reader),
      bufio.readFrom 10 buf i rd = .ok l r →
      r.buf.count 10 + lineFeeds r.rd + 1 ≤ buf.count 10 + lineFeeds rd := by
  induction rd with
  | nil => intro buf i l r h; simp [bufio.readFrom] at h
  | cons x rd ih =>
    intro buf i l r h
    rcases x with p | e
    · rcases p with _ | ⟨b, p⟩
      · by_cases hi : i ≤ 1
        · simp [bufio.readFrom, hi] at h
        · simp only [bufio.readFrom, hi, if_false] at h
          have := ih buf (i - 1) l r h
          simpa [lineFeeds] using this
      · cases hsp : splitAfter 10 (buf ++ b :: p) with
        | some lr =>
          obtain ⟨line, rest⟩ := lr
          simp only [bufio.readFrom, hsp, bufio.ReadStringResult.ok.injEq] at h
          have hc := splitAfter_count hsp
          rw [List.count_append] at hc
          rw [← h.2]
          simp only [lineFeeds]
          omega
        | none =>
          simp only [bufio.readFrom, hsp] at h
          have := ih (buf ++ b :: p) _ l r h
          rw [List.count_append] at this
          simp only [lineFeeds]
          omega
    · simp [bufio.readFrom] at h

theorem ReadString_ok_count (b : bufio.Reader) (l : List Byte) (r : bufio.Reader)
    (h : b.ReadString 10 = .ok l r) :
    r.buf.count 10 + lineFeeds r.rd + 1 ≤ b.buf.count 10 + lineFeeds b.rd := by
  unfold bufio.Reader.ReadString at h
  cases hsp : splitAfter 10 b.buf with
  | some lr =>
    obtain ⟨line, rest⟩ := lr
    simp only [hsp, bufio.ReadStringResult.ok.injEq] at h
    have hc := splitAfter_count hsp
    rw [← h.2]
    simp only
    omega
  | none =>
    simp only [hsp] at h
    exact readFrom_ok_count _ _ _ _ _ h

/-- With fuel for one iteration per line feed still to come and one more, the loop ends. -/
theorem relayLoop_total (tunnelUrl : Option String) (env : ForwardEnv) :
    ∀ (fuel n : Nat) (reader : bufio.Reader),
      reader.buf.count 10 + lineFeeds reader.rd < fuel →
      ∃ res, relayLoop tunnelUrl env fuel n reader = some res := by
  intro fuel
  induction fuel with
  | zero => intro n reader h; omega
  | succ fuel ih =>
    intro n reader h
    rw [relayLoop]
    cases hr : reader.ReadString 10 with
    | blocked => exact ⟨_, rfl⟩
    | err data e r =>
      by_cases he : e = IOError.EOF
      · exact ⟨_, if_pos he⟩
      · exact ⟨_, if_neg he⟩
    | ok line r =>
      have hc := ReadString_ok_count reader line r hr
      obtain ⟨res, hres⟩ := ih (n + 1) r (by omega)
      simp only [hres]
      exact ⟨_, rfl⟩

theorem relay_total (tunnelUrl : Option String) (env : ForwardEnv) (body : Transport) :
    ∃ res, relay tunnelUrl env body = some res :=
  relayLoop_total tunnelUrl env _ 0 ⟨[], body⟩ (by simp)

/-- Every run of the loop handles some lines in order and then ends. -/
theorem relayLoop_effects (tunnelUrl : Option String) (env : ForwardEnv) :
    ∀ (fuel n : Nat) (reader : bufio.Reader) (res : Result),
      relayLoop tunnelUrl env fuel n reader = some res →
      ∃ lines fin, res.effects = linesEffects tunnelUrl env n lines ++ fin ∧ isLoopEnd fin ∧
        lines.length ≤ reader.buf.count 10 + lineFeeds reader.rd := by
  intro fuel
  induction fuel with
  | zero => intro n reader res h; simp [relayLoop] at h
  | succ fuel ih =>
    intro n reader res h
    rw [relayLoop] at h
    cases hr : reader.ReadString 10 with
    | blocked =>
      simp only [hr, Option.some.injEq] at h
      exact ⟨[], [], by simp [← h, linesEffects], Or.inl rfl, by simp⟩
    | err data e r =>
      simp only [hr] at h
      by_cases he : e = IOError.EOF
      · simp only [he, if_true, Option.some.injEq] at h
        exact ⟨[], _, by simp [← h, linesEffects], Or.inr (Or.inl rfl), by simp⟩
      · simp only [he, if_false, Option.some.injEq] at h
        exact ⟨[], _, by simp [← h, linesEffects], Or.inr (Or.inr ⟨e, he, rfl⟩), by simp⟩
    | ok line r =>
      simp only [hr] at h
      have hc := ReadString_ok_count reader line r hr
      cases hl : relayLoop tunnelUrl env fuel (n + 1) r with
      | none => simp [hl] at h
      | some res0 =>
        simp only [hl, Option.some.injEq] at h
        obtain ⟨lines, fin, he, hf, hlen⟩ := ih (n + 1) r res0 hl
        refine ⟨line :: lines, fin, ?_, hf, ?_⟩
        · rw [← h, linesEffects_cons, he, List.append_assoc]
        · simp only [List.length_cons]; omega

theorem relay_effects (tunnelUrl : Option String) (env : ForwardEnv) (body : Transport) :
    ∃ res lines fin, relay tunnelUrl env body = some res ∧
      res.effects = linesEffects tunnelUrl env 0 lines ++ fin ∧ isLoopEnd fin ∧
      lines.length ≤ lineFeeds body := by
  obtain ⟨res, h⟩ := relay_total tunnelUrl env body
  obtain ⟨lines, fin, he, hf, hl⟩ := relayLoop_effects tunnelUrl env _ 0 _ res h
  exact ⟨res, lines, fin, h, he, hf, by simpa using hl⟩

theorem processLine_filterMap_env {β : Type} (f : Effect → Option β)
    (hf : ∀ u c b o1 o2, f (.post u c b o1) = f (.post u c b o2))
    (tunnelUrl : Option String) (o1 o2 : PostOutcome) (line : List Byte) :
    (processLine tunnelUrl o1 line).filterMap f = (processLine tunnelUrl o2 line).filterMap f := by
  unfold processLine
  simp only []
  split
  · rcases tunnelUrl with _ | url
    · rfl
    · by_cases hu : url = ""
      · simp [hu]
      · simp [hu, List.filterMap_cons, hf url "application/json" _ o1 o2]
  · rfl

/-- Whatever does not look at the outcome of a forward sees the same run in any forwarding
environment. -/
theorem relayLoop_env {β : Type} (f : Effect → Option β)
    (hf : ∀ u c b o1 o2, f (.post u c b o1) = f (.post u c b o2))
    (tunnelUrl : Option String) (env1 env2 : ForwardEnv) :
    ∀ (fuel n : Nat) (reader : bufio.Reader),
      (relayLoop tunnelUrl env1 fuel n reader).map
          (fun r => (r.effects.filterMap f, r.exit, r.unread))
        = (relayLoop tunnelUrl env2 fuel n reader).map
          (fun r => (r.effects.filterMap f, r.exit, r.unread)) := by
  intro fuel
  induction fuel with
  | zero => intro n reader; rfl
  | succ fuel ih =>
    intro n reader
    rw [relayLoop, relayLoop]
    cases hr : reader.ReadString 10 with
    | blocked => rfl
    | err data e r => rfl
    | ok line r =>
      simp only []
      have := ih (n + 1) r
      cases h1 : relayLoop tunnelUrl env1 fuel (n + 1) r with
      | none =>
        cases h2 : relayLoop tunnelUrl env2 fuel (n + 1) r with
        | none => rfl
        | some r2 => simp [h1, h2] at this
      | some r1 =>
        cases h2 : relayLoop tunnelUrl env2 fuel (n + 1) r with
        | none => simp [h1, h2] at this
        | some r2 =>
          simp only [h1, h2, Option.map_some', Option.some.injEq, Prod.mk.injEq] at this ⊢
          refine ⟨?_, this.2⟩
          rw [List.filterMap_append, List.filterMap_append, this.1,
            processLine_filterMap_env f hf tunnelUrl (env1 n) (env2 n) line]

theorem relay_env {β : Type} (f : Effect → Option β)
    (hf : ∀ u c b o1 o2, f (.post u c b o1) = f (.post u c b o2))
    (tunnelUrl : Option String) (env1 env2 : ForwardEnv) (body : Transport) :
    ∃ r1 r2, relay tunnelUrl env1 body = some r1 ∧ relay tunnelUrl env2 body = some r2 ∧
      r1.effects.filterMap f = r2.effects.filterMap f ∧ r1.exit = r2.exit ∧
      r1.unread = r2.unread := by
  obtain ⟨r1, h1⟩ := relay_total tunnelUrl env1 body
  obtain ⟨r2, h2⟩ := relay_total tunnelUrl env2 body
  have := relayLoop_env f hf tunnelUrl env1 env2 (lineFeeds body + 1) 0 ⟨[], body⟩
  unfold relay at h1 h2
  simp only [h1, h2, Option.map_some', Option.some.injEq, Prod.mk.injEq] at this
  exact ⟨r1, r2, h1, h2, this.1, this.2.1, this.2.2⟩

/-! ## More on the loop body -/

theorem processLine_eq_nil (tunnelUrl : Option String) (o : PostOutcome) {line : List Byte}
    (h1 : strings.HasPrefix (strings.TrimSpace line) dataPrefix = false)
    (h2 : strings.HasPrefix (strings.TrimSpace line) commentMark = false) :
    processLine tunnelUrl o line = [] := by
  simp [processLine, h1, h2]

theorem HasPrefix_eq_append {s pre : List Byte} (h : strings.HasPrefix s pre = true) :
    s = pre ++ strings.TrimPrefix s pre := by
  have hp : pre <+: s := List.isPrefixOf_iff_prefix.mp h
  obtain ⟨t, ht⟩ := hp
  rw [strings.TrimPrefix, if_pos h, ← ht]
  simp

theorem data_mem_frames_processLine {tunnelUrl : Option String} {o : PostOutcome}
    {line d : List Byte} (h : Frame.Data d ∈ frames (processLine tunnelUrl o line)) :
    strings.TrimSpace line = dataPrefix ++ d := by
  rw [frames_processLine] at h
  by_cases h1 : strings.HasPrefix (strings.TrimSpace line) dataPrefix = true
  · simp only [h1, if_true, List.mem_singleton, Frame.Data.injEq] at h
    rw [h]
    exact HasPrefix_eq_append h1
  · rw [if_neg h1] at h
    split at h <;> simp at h

theorem payload_trimmed {tunnelUrl : Option String} {o : PostOutcome} {line d : List Byte}
    (h : Frame.Data d ∈ frames (processLine tunnelUrl o line)) :
    d ≠ [] ∧ endsWithSpace d = false := by
  have hT := data_mem_frames_processLine h
  have hE := endsWithSpace_TrimSpace line
  rw [hT] at hE
  constructor
  · intro hd
    rw [hd] at hE
    revert hE
    decide
  · cases hd : endsWithSpace d
    · rfl
    · rw [endsWithSpace_append dataPrefix hd] at hE
      exact Bool.noConfusion hE

theorem end_not_mem_frames_processLine (tunnelUrl : Option String) (o : PostOutcome)
    (line : List Byte) : Frame.End ∉ frames (processLine tunnelUrl o line) := by
  rw [frames_processLine]
  split
  · simp
  · split <;> simp

theorem frames_append (a b : List Effect) : frames (a ++ b) = frames a ++ frames b := by
  simp [frames]

theorem end_not_mem_frames_linesEffects (tunnelUrl : Option String) (env : ForwardEnv)
    (lines : List (List Byte)) :
    ∀ n, Frame.End ∉ frames (linesEffects tunnelUrl env n lines) := by
  induction lines with
  | nil => intro n; simp [linesEffects, frames]
  | cons l ls ih =>
    intro n
    rw [linesEffects_cons, frames_append, List.mem_append]
    rintro (h | h)
    · exact end_not_mem_frames_processLine _ _ _ h
    · exact ih _ h

theorem mem_frames_linesEffects {tunnelUrl : Option String} {env : ForwardEnv}
    {lines : List (List Byte)} {f : Frame} :
    ∀ {n}, f ∈ frames (linesEffects tunnelUrl env n lines) →
      ∃ o line, f ∈ frames (processLine tunnelUrl o line) := by
  induction lines with
  | nil => intro n h; simp [linesEffects, frames] at h
  | cons l ls ih =>
    intro n h
    rw [linesEffects_cons, frames_append, List.mem_append] at h
    rcases h with h | h
    · exact ⟨_, _, h⟩
    · exact ih h

theorem data_not_mem_frames_loopEnd {fin : List Effect} (h : isLoopEnd fin) (d : List Byte) :
    Frame.Data d ∉ frames fin := by
  rcases h with h | h | ⟨e, _, h⟩ <;> simp [h, frames, Effect.frame]

theorem isLine_frames_loopEnd {fin : List Effect} (h : isLoopEnd fin) :
    (frames fin).filter Frame.isLine = [] := by
  rcases h with h | h | ⟨e, _, h⟩ <;> simp [h, frames, Effect.frame, Frame.isLine]

theorem linesEffects_length_le (tunnelUrl : Option String) (env : ForwardEnv)
    (lines : List (List Byte)) :
    ∀ n, (linesEffects tunnelUrl env n lines).length ≤ lines.length := by
  induction lines with
  | nil => intro n; simp [linesEffects]
  | cons l ls ih =>
    intro n
    rw [linesEffects_cons, List.length_append, List.length_cons]
    have := processLine_length_le tunnelUrl (env n) l
    have := ih (n + 1)
    omega

/-! ## More on lines -/

theorem completeLines_line_append {l : List Byte} (rest : List Byte) (h : 10 ∉ l) :
    completeLines (l ++ 10 :: rest) = (l ++ [10]) :: completeLines rest := by
  induction l with
  | nil => simp [completeLines]
  | cons b t ih =>
    have hb : ¬ b = 10 := fun hb => h (by simp [hb])
    have ht : 10 ∉ t := fun ht => h (by simp [ht])
    rw [List.cons_append, completeLines, if_neg hb, ih ht]
    rfl

theorem completeLines_append_of_not_mem (s : List Byte) {t : List Byte} (h : 10 ∉ t) :
    completeLines (s ++ t) = completeLines s := by
  induction s with
  | nil =>
    simpa using completeLines_of_none (splitAfter_eq_none.mpr h)
  | cons b bs ih =>
    by_cases hb : b = 10
    · simp [completeLines, hb, ih]
    · rw [List.cons_append, completeLines, if_neg hb, ih, completeLines, if_neg hb]

theorem completeLines_lines (ls : List (List Byte)) (h : ∀ l ∈ ls, 10 ∉ l) :
    completeLines (ls.map (fun l => l ++ [10])).flatten = ls.map (fun l => l ++ [10]) := by
  induction ls with
  | nil => simp [completeLines]
  | cons l ls ih =>
    simp only [List.map_cons, List.flatten_cons, List.append_assoc, List.singleton_append]
    rw [completeLines_line_append _ (h l (by simp)), ih (fun l hl => h l (by simp [hl]))]

theorem stallFreeFrom_take (chunks : List (List Byte)) :
    ∀ (i k : Nat), stallFreeFrom i chunks = true → stallFreeFrom i (chunks.take k) = true := by
  induction chunks with
  | nil => intro i k _; simp [stallFreeFrom]
  | cons c cs ih =>
    intro i k h
    cases k with
    | zero => simp [stallFreeFrom]
    | succ k =>
      rcases c with _ | ⟨b, p⟩
      · simp only [stallFreeFrom, Bool.and_eq_true, decide_eq_true_eq] at h
        simp only [List.take_succ_cons, stallFreeFrom, Bool.and_eq_true, decide_eq_true_eq]
        exact ⟨h.1, ih _ _ h.2⟩
      · simp only [stallFreeFrom] at h
        simp only [List.take_succ_cons, stallFreeFrom]
        exact ih _ _ h

/-! ## Frame classification -/

/-- C1. Frame classification in the relay loop: the line `data: {"a":1}\n` is handled as a
`Data` frame with payload `{"a":1}`, the line `:done\n` as a `Comment` frame with payload
`done`, and the lines `\n`, a white-space-only line, `event: ping\n` and `id: 7\n` have no
effect at all.  In general, with the line trimmed of leading and trailing white space, a
line with prefix `data: ` gives one `Data` frame whose payload is the rest after the prefix,
otherwise a line with prefix `:` gives one `Comment` frame whose payload is the rest after
the marker, and every other line gives no frame and no effect. -/
theorem frame_classification (tunnelUrl : Option String) (outcome : PostOutcome) :
    frames (processLine tunnelUrl outcome (utf8 "data: \x7b\"a\":1\x7d\n"))
        = [Frame.Data (utf8 "\x7b\"a\":1\x7d")] ∧
    frames (processLine tunnelUrl outcome (utf8 ":done\n")) = [Frame.Comment (utf8 "done")] ∧
    processLine tunnelUrl outcome (utf8 "\n") = [] ∧
    processLine tunnelUrl outcome (utf8 " \t \r\n") = [] ∧
    processLine tunnelUrl outcome (utf8 "event: ping\n") = [] ∧
    processLine tunnelUrl outcome (utf8 "id: 7\n") = [] ∧
    ∀ line : List Byte,
      frames (processLine tunnelUrl outcome line) =
        (if strings.HasPrefix (strings.TrimSpace line) dataPrefix then
          [Frame.Data ((strings.TrimSpace line).drop 6)]
        else if strings.HasPrefix (strings.TrimSpace line) commentMark then
          [Frame.Comment ((strings.TrimSpace line).drop 1)]
        else []) ∧
      (strings.HasPrefix (strings.TrimSpace line) dataPrefix = false →
        strings.HasPrefix (strings.TrimSpace line) commentMark = false →
        processLine tunnelUrl outcome line = []) := by
  refine ⟨?_, ?_, ?_, ?_, ?_, ?_, ?_⟩
  · rw [frames_processLine]; decide
  · rw [frames_processLine]; decide
  · exact processLine_eq_nil _ _ (by decide) (by decide)
  · exact processLine_eq_nil _ _ (by decide) (by decide)
  · exact processLine_eq_nil _ _ (by decide) (by decide)
  · exact processLine_eq_nil _ _ (by decide) (by decide)
  · intro line
    refine ⟨?_, fun h1 h2 => processLine_eq_nil _ _ h1 h2⟩
    rw [frames_processLine]
    by_cases h : strings.HasPrefix (strings.TrimSpace line) dataPrefix = true
    · rw [if_pos h, if_pos h, strings.TrimPrefix, if_pos h]
      rfl
    · rw [if_neg h, if_neg h]

/-! ## Reassembly, termination, read errors -/

theorem frames_dataLines (tunnelUrl : Option String) (env : ForwardEnv)
    (payloads : List (List Byte))
    (hv : ∀ p ∈ payloads, p ≠ [] ∧ 10 ∉ p ∧ endsWithSpace p = false) :
    ∀ n, frames (linesEffects tunnelUrl env n (payloads.map (fun p => dataPrefix ++ p ++ [10])))
      = payloads.map Frame.Data := by
  induction payloads with
  | nil => intro n; simp [linesEffects, frames]
  | cons p ps ih =>
    intro n
    obtain ⟨hp, _, hs⟩ := hv p (by simp)
    have hpre : strings.HasPrefix (dataPrefix ++ p) dataPrefix = true := by
      simp [strings.HasPrefix]
    rw [List.map_cons, linesEffects_cons, frames_append, ih (fun q hq => hv q (by simp [hq])),
      frames_processLine, TrimSpace_dataLine hp hs, if_pos hpre, strings.TrimPrefix, if_pos hpre]
    simp

theorem relay_single_line (tunnelUrl : Option String) (env : ForwardEnv) (s : List Byte)
    (chunks : List (List Byte)) (tail : Transport) (res : Result) (hs : 10 ∉ s)
    (hc : chunks.flatten = s ++ [10]) (hp : stallFree chunks = true)
    (ht : tailResult tail = some res) :
    relay tunnelUrl env (dataReads chunks ++ tail)
      = some ⟨processLine tunnelUrl (env 0) s ++ res.effects, res.exit, res.unread⟩ := by
  rw [relay_chunks tunnelUrl env chunks tail res hp ht, hc]
  have : completeLines (s ++ [10]) = [s ++ [10]] := by
    simpa [completeLines] using completeLines_line_append [] hs
  rw [this]
  simp [linesEffects, processLine_append_lf]

/-- C2. Line reassembly: let a string `s` without line feed, followed by its line feed, be
delivered in chunks of any partition that does not stall the reader (every partition into
chunks that are not empty is one, chunks of one byte included, and so are lines longer than
any chunk).  Then the relay handles exactly the line `s`,
the same for every partition: its frame is the one of the whole string, with white space
trimmed and the recognised prefix stripped.  This holds while the stream stays open and when
it then ends.  As long as the line feed has not arrived no frame is emitted. -/
theorem line_reassembly (tunnelUrl : Option String) (env : ForwardEnv) (s : List Byte)
    (chunks : List (List Byte)) (hs : 10 ∉ s) (hc : chunks.flatten = s ++ [10])
    (hp : stallFree chunks = true) :
    relay tunnelUrl env (dataReads chunks)
        = some ⟨processLine tunnelUrl (env 0) s, .blocked, []⟩ ∧
    relay tunnelUrl env (dataReads chunks ++ [.fail .EOF])
        = some ⟨processLine tunnelUrl (env 0) s ++ [.printClosed], .returned, []⟩ ∧
    frames (processLine tunnelUrl (env 0) s) =
        (if strings.HasPrefix (strings.TrimSpace s) dataPrefix then
          [Frame.Data (strings.TrimPrefix (strings.TrimSpace s) dataPrefix)]
        else if strings.HasPrefix (strings.TrimSpace s) commentMark then
          [Frame.Comment ((strings.TrimSpace s).drop 1)]
        else []) ∧
    ∀ k, 10 ∉ (chunks.take k).flatten →
      relay tunnelUrl env (dataReads (chunks.take k)) = some ⟨[], .blocked, []⟩ := by
  refine ⟨?_, ?_, frames_processLine _ _ _, ?_⟩
  · simpa using relay_single_line tunnelUrl env s chunks [] _ hs hc hp rfl
  · simpa using relay_single_line tunnelUrl env s chunks [.fail .EOF] _ hs hc hp rfl
  · intro k hk
    have h := relay_chunks tunnelUrl env (chunks.take k) [] _
      (stallFreeFrom_take chunks _ k hp) rfl
    rw [completeLines_of_none (splitAfter_eq_none.mpr hk)] at h
    simpa [linesEffects] using h

/-- Witness of C2: the line `data: hi`, delivered one byte at a time, is handled as one
`Data` frame with payload `hi`. -/
theorem line_reassembly_witness :
    10 ∉ utf8 "data: hi" ∧
    ((utf8 "data: hi\n").map fun b => [b]).flatten = utf8 "data: hi" ++ [10] ∧
    stallFree ((utf8 "data: hi\n").map fun b => [b]) = true ∧
    relay none (fun _ => .responded 200) (dataReads ((utf8 "data: hi\n").map fun b => [b]))
      = some ⟨[.printMessage (utf8 "hi")], .blocked, []⟩ :=
  ⟨by decide, by decide, by decide,
    (line_reassembly none (fun _ => .responded 200) (utf8 "data: hi")
      ((utf8 "data: hi\n").map fun b => [b]) (by decide) (by decide) (by decide)).1.trans
      (by decide)⟩

/-- C3. Termination: let a transport deliver `N` valid `data:` lines (each `data: ` followed
by a payload that is not empty, holds no line feed and does not end in white space, and a
line feed), in chunks of any partition that does not stall the reader, and then close
cleanly.  Then the relay handles exactly `N` `Data` frames, in input order and each with the
payload of its line, followed by exactly one `End` frame and nothing more; the function
returns, and whatever the transport would deliver after the end of the stream is never
read. -/
theorem termination_after_data_lines (tunnelUrl : Option String) (env : ForwardEnv)
    (payloads : List (List Byte)) (chunks : List (List Byte)) (post : Transport)
    (hv : ∀ p ∈ payloads, p ≠ [] ∧ 10 ∉ p ∧ endsWithSpace p = false)
    (hc : chunks.flatten = (payloads.map (fun p => dataPrefix ++ p ++ [10])).flatten)
    (hp : stallFree chunks = true) :
    relay tunnelUrl env (dataReads chunks ++ .fail .EOF :: post)
        = some ⟨linesEffects tunnelUrl env 0 (payloads.map (fun p => dataPrefix ++ p ++ [10]))
            ++ [.printClosed], .returned, post⟩ ∧
    frames (linesEffects tunnelUrl env 0 (payloads.map (fun p => dataPrefix ++ p ++ [10]))
        ++ [.printClosed]) = payloads.map Frame.Data ++ [Frame.End] := by
  constructor
  · rw [relay_chunks tunnelUrl env chunks (.fail .EOF :: post) _ hp rfl, hc]
    have hmap : payloads.map (fun p => dataPrefix ++ p ++ [10])
        = (payloads.map (fun p => dataPrefix ++ p)).map (fun l => l ++ [10]) := by
      simp
    have hl : ∀ l ∈ payloads.map (fun p => dataPrefix ++ p), 10 ∉ l := by
      intro l hl
      obtain ⟨p, hp, rfl⟩ := List.mem_map.mp hl
      have := (hv p hp).2.1
      simp [dataPrefix, this]
    rw [hmap, completeLines_lines _ hl]
  · rw [frames_append, frames_dataLines tunnelUrl env payloads hv]
    rfl

/-- Witness of C3: two event lines delivered in three chunks, then the end of the stream,
then data that is never read. -/
theorem termination_after_data_lines_witness :
    relay none (fun _ => .responded 200)
        (dataReads [utf8 "data: a\nda", utf8 "ta", utf8 ": b\n"] ++
          [.fail .EOF, .data (utf8 "data: c\n")])
      = some ⟨[.printMessage (utf8 "a"), .printMessage (utf8 "b"), .printClosed], .returned,
          [.data (utf8 "data: c\n")]⟩ :=
  (termination_after_data_lines none (fun _ => .responded 200) [utf8 "a", utf8 "b"]
    [utf8 "data: a\nda", utf8 "ta", utf8 ": b\n"] [.data (utf8 "data: c\n")]
    (by decide) (by decide) (by decide)).1.trans (by decide)

/-- C5. Fatal read error: let a transport deliver any bytes, in chunks of any partition that
does not stall the reader, and then fail with an error other than the clean end of the
stream.  Then the relay handles the complete lines that came before the failure, in order,
reports the read error with `log.Fatalf` and is ended by it; no `End` frame is emitted (no
completion notice), and whatever the transport would deliver afterwards is never read. -/
theorem fatal_read_error (tunnelUrl : Option String) (env : ForwardEnv)
    (chunks : List (List Byte)) (e : IOError) (post : Transport) (he : e ≠ IOError.EOF)
    (hp : stallFree chunks = true) :
    relay tunnelUrl env (dataReads chunks ++ .fail e :: post)
        = some ⟨linesEffects tunnelUrl env 0 (completeLines chunks.flatten)
            ++ [.fatal (.readingStream e)], .exited, post⟩ ∧
    Frame.End ∉ frames (linesEffects tunnelUrl env 0 (completeLines chunks.flatten)
        ++ [.fatal (.readingStream e)]) ∧
    Effect.printClosed ∉ linesEffects tunnelUrl env 0 (completeLines chunks.flatten)
        ++ [.fatal (.readingStream e)] := by
  have hE : Frame.End ∉ frames (linesEffects tunnelUrl env 0 (completeLines chunks.flatten)
      ++ [.fatal (.readingStream e)]) := by
    rw [frames_append, List.mem_append]
    rintro (h | h)
    · exact end_not_mem_frames_linesEffects _ _ _ _ h
    · simp [frames, Effect.frame] at h
  refine ⟨?_, hE, ?_⟩
  · have ht : tailResult (.fail e :: post)
        = some ⟨[.fatal (.readingStream e)], .exited, post⟩ := by
      simp [tailResult, he]
    exact relay_chunks tunnelUrl env chunks (.fail e :: post) _ hp ht
  · intro h
    apply hE
    simp only [frames, List.mem_filterMap]
    exact ⟨_, h, rfl⟩

/-- Witness of C5: one complete line and an unfinished one, then a failed read, then data
that is never read. -/
theorem fatal_read_error_witness :
    relay none (fun _ => .responded 200)
        (dataReads [utf8 "data: a\ndata: b"] ++ [.fail (.other 104), .data (utf8 "\n")])
      = some ⟨[.printMessage (utf8 "a"), .fatal (.readingStream (.other 104))], .exited,
          [.data (utf8 "\n")]⟩ :=
  (fatal_read_error none (fun _ => .responded 200) [utf8 "data: a\ndata: b"] (.other 104)
    [.data (utf8 "\n")] (by decide) (by decide)).1.trans (by decide)

/-! ## Routing -/

theorem routing_line_configured (url : String) (hu : url ≠ "") (o : PostOutcome)
    (line : List Byte) :
    postsOf (processLine (some url) o line)
        = (dataOf (frames (processLine (some url) o line))).map
            (fun d => (url, "application/json", d)) ∧
    printedOf (processLine (some url) o line) = [] := by
  unfold processLine
  simp only []
  split
  · simp [hu, postsOf, printedOf, dataOf, frames, Effect.frame]
  · split <;> simp [postsOf, printedOf, dataOf, frames, Effect.frame]

theorem routing_line_unconfigured (tunnelUrl : Option String)
    (hu : tunnelUrl = none ∨ tunnelUrl = some "") (o : PostOutcome) (line : List Byte) :
    postsOf (processLine tunnelUrl o line) = [] ∧
    printedOf (processLine tunnelUrl o line) = dataOf (frames (processLine tunnelUrl o line)) := by
  unfold processLine
  simp only []
  split
  · rcases hu with hu | hu <;> simp [hu, postsOf, printedOf, dataOf, frames, Effect.frame]
  · split <;> simp [postsOf, printedOf, dataOf, frames, Effect.frame]

theorem routing_lines_configured (url : String) (hu : url ≠ "") (env : ForwardEnv)
    (lines : List (List Byte)) :
    ∀ n, postsOf (linesEffects (some url) env n lines)
        = (dataOf (frames (linesEffects (some url) env n lines))).map
            (fun d => (url, "application/json", d)) ∧
      printedOf (linesEffects (some url) env n lines) = [] := by
  induction lines with
  | nil => intro n; simp [linesEffects, postsOf, printedOf, dataOf, frames]
  | cons l ls ih =>
    intro n
    obtain ⟨h1, h2⟩ := routing_line_configured url hu (env n) l
    obtain ⟨h3, h4⟩ := ih (n + 1)
    rw [linesEffects_cons]
    simp only [postsOf, printedOf, dataOf, frames, List.filterMap_append, List.map_append] at *
    rw [h1, h2, h3, h4]
    simp

theorem routing_lines_unconfigured (tunnelUrl : Option String)
    (hu : tunnelUrl = none ∨ tunnelUrl = some "") (env : ForwardEnv)
    (lines : List (List Byte)) :
    ∀ n, postsOf (linesEffects tunnelUrl env n lines) = [] ∧
      printedOf (linesEffects tunnelUrl env n lines)
        = dataOf (frames (linesEffects tunnelUrl env n lines)) := by
  induction lines with
  | nil => intro n; simp [linesEffects, postsOf, printedOf, dataOf, frames]
  | cons l ls ih =>
    intro n
    obtain ⟨h1, h2⟩ := routing_line_unconfigured tunnelUrl hu (env n) l
    obtain ⟨h3, h4⟩ := ih (n + 1)
    rw [linesEffects_cons]
    simp only [postsOf, printedOf, dataOf, frames, List.filterMap_append] at *
    rw [h1, h2, h3, h4]
    simp

theorem routing_loopEnd {fin : List Effect} (h : isLoopEnd fin) :
    postsOf fin = [] ∧ printedOf fin = [] ∧ dataOf (frames fin) = [] := by
  rcases h with h | h | ⟨e, _, h⟩ <;> simp [h, postsOf, printedOf, dataOf, frames, Effect.frame]

theorem frames_processLine_spec (tunnelUrl : Option String) (o : PostOutcome)
    (line : List Byte) :
    frames (processLine tunnelUrl o line) = (specFrame line).toList := by
  rw [frames_processLine]
  unfold specFrame strings.HasPrefix strings.TrimPrefix strings.HasPrefix
  simp only []
  split
  · next h => simp [h]
  · split <;> rfl

theorem frames_linesEffects_spec (tunnelUrl : Option String) (env : ForwardEnv)
    (lines : List (List Byte)) :
    ∀ n, frames (linesEffects tunnelUrl env n lines) = lines.filterMap specFrame := by
  induction lines with
  | nil => intro n; rfl
  | cons l ls ih =>
    intro n
    rw [linesEffects_cons, frames_append, ih, frames_processLine_spec, List.filterMap_cons]
    cases h : specFrame l <;> simp

theorem processLine_eq_route (tunnelUrl : Option String) (o : PostOutcome) (line : List Byte) :
    processLine tunnelUrl o line =
      match specFrame line with
      | some (.Data d) =>
        (match tunnelUrl with
          | some url =>
            if url ≠ "" then [.post url "application/json" d o] else [.printMessage d]
          | none => [.printMessage d])
      | some (.Comment c) => [.printComment c]
      | _ => [] := by
  unfold processLine specFrame strings.HasPrefix strings.TrimPrefix strings.HasPrefix
  simp only []
  split
  · next h => simp [h]
  · split <;> rfl

/-- C4, as the relay does it.  Routing: a line whose frame is `Data` with payload `d` has
exactly one effect, the call `http.Post(url, "application/json", d)` when the forwarding
URL is set and not empty, and the console line for `d` otherwise (flag absent or empty); a
line whose frame is `Comment` has exactly one effect, the console line of the comment,
whatever the configuration; every other line has none.  So `data: x` is posted to
`http://localhost:3000` when that is the forwarding URL and printed when there is none, and
`:hi` is printed in both.  Over a whole run, when the stream arrives in chunks that do not
stall the reader and then stays open, ends or fails, the frames handled are those of the
complete lines of the stream, in order; and on any transport, with a forwarding URL the
calls of `http.Post` are exactly the payloads of the `Data` frames, in order, each once with
that URL and content type `application/json`, and no payload is printed, while without one
there is no call and exactly the payloads of the `Data` frames are printed. -/
theorem routing (tunnelUrl : Option String) (env : ForwardEnv) :
    (∀ (outcome : PostOutcome) (line : List Byte),
      processLine tunnelUrl outcome line =
        match specFrame line with
        | some (.Data d) =>
          (match tunnelUrl with
            | some url =>
              if url ≠ "" then [.post url "application/json" d outcome] else [.printMessage d]
            | none => [.printMessage d])
        | some (.Comment c) => [.printComment c]
        | _ => []) ∧
    (∀ outcome : PostOutcome,
      processLine (some "http://localhost:3000") outcome (utf8 "data: x\n")
        = [.post "http://localhost:3000" "application/json" (utf8 "x") outcome] ∧
      processLine none outcome (utf8 "data: x\n") = [.printMessage (utf8 "x")] ∧
      processLine (some "") outcome (utf8 "data: x\n") = [.printMessage (utf8 "x")] ∧
      processLine (some "http://localhost:3000") outcome (utf8 ":hi\n")
        = [.printComment (utf8 "hi")] ∧
      processLine none outcome (utf8 ":hi\n") = [.printComment (utf8 "hi")]) ∧
    (∀ (chunks : List (List Byte)) (tail : Transport),
      stallFree chunks = true → (tail = [] ∨ ∃ e post, tail = ReadResult.fail e :: post) →
      ∃ res fin, relay tunnelUrl env (dataReads chunks ++ tail) = some res ∧
        tailResult tail = some fin ∧
        res.effects
          = linesEffects tunnelUrl env 0 (completeLines chunks.flatten) ++ fin.effects ∧
        frames res.effects
          = (completeLines chunks.flatten).filterMap specFrame ++ frames fin.effects) ∧
    (∀ (outcome : PostOutcome) (line : List Byte),
      (processLine tunnelUrl outcome line).length
          = (frames (processLine tunnelUrl outcome line)).length ∧
      (processLine tunnelUrl outcome line).length ≤ 1 ∧
      (∀ d, Frame.Data d ∈ frames (processLine tunnelUrl outcome line) →
        processLine tunnelUrl outcome line =
          match tunnelUrl with
          | some url =>
            if url ≠ "" then [.post url "application/json" d outcome] else [.printMessage d]
          | none => [.printMessage d]) ∧
      (∀ c, Frame.Comment c ∈ frames (processLine tunnelUrl outcome line) →
        processLine tunnelUrl outcome line = [.printComment c])) ∧
    (∀ body : Transport, ∃ res, relay tunnelUrl env body = some res ∧
      (∀ url, tunnelUrl = some url → url ≠ "" →
        postsOf res.effects
            = (dataOf (frames res.effects)).map (fun d => (url, "application/json", d)) ∧
        printedOf res.effects = []) ∧
      (tunnelUrl = none ∨ tunnelUrl = some "" →
        postsOf res.effects = [] ∧ printedOf res.effects = dataOf (frames res.effects))) := by
  refine ⟨fun outcome line => processLine_eq_route _ _ _, ?_, ?_, ?_, ?_⟩
  · intro outcome
    refine ⟨?_, ?_, ?_, ?_, ?_⟩ <;> rw [processLine_eq_route] <;> rfl
  · intro chunks tail hs ht
    have hfin : ∃ fin, tailResult tail = some fin := by
      rcases ht with ht | ⟨e, post, ht⟩
      · exact ⟨_, by rw [ht]; rfl⟩
      · by_cases he : e = IOError.EOF
        · exact ⟨⟨[.printClosed], .returned, post⟩, by simp [ht, tailResult, he]⟩
        · exact ⟨⟨[.fatal (.readingStream e)], .exited, post⟩, by simp [ht, tailResult, he]⟩
    obtain ⟨fin, hfin⟩ := hfin
    refine ⟨_, fin, relay_chunks tunnelUrl env chunks tail fin hs hfin, hfin, rfl, ?_⟩
    simp only []
    rw [frames_append, frames_linesEffects_spec]
  · intro outcome line
    refine ⟨?_, processLine_length_le _ _ _, ?_, ?_⟩
    · unfold processLine
      simp only []
      split
      · rcases tunnelUrl with _ | url
        · simp [frames, Effect.frame]
        · by_cases hu : url = "" <;> simp [frames, Effect.frame, hu]
      · split <;> simp [frames, Effect.frame]
    · intro d hd
      have hT := data_mem_frames_processLine hd
      have hpre : strings.HasPrefix (dataPrefix ++ d) dataPrefix = true := by
        simp [strings.HasPrefix]
      have htp : strings.TrimPrefix (dataPrefix ++ d) dataPrefix = d := by
        rw [strings.TrimPrefix, if_pos hpre]; simp
      simp only [processLine, hT, hpre, if_true, htp]
    · intro c hc
      rw [frames_processLine] at hc
      by_cases h1 : strings.HasPrefix (strings.TrimSpace line) dataPrefix = true
      · rw [if_pos h1] at hc; simp at hc
      · rw [if_neg h1] at hc
        by_cases h2 : strings.HasPrefix (strings.TrimSpace line) commentMark = true
        · rw [if_pos h2] at hc
          simp only [List.mem_singleton, Frame.Comment.injEq] at hc
          simp [processLine, h1, h2, hc]
        · rw [if_neg h2] at hc; simp at hc
  · intro body
    obtain ⟨res, lines, fin, hres, he, hf, _⟩ := relay_effects tunnelUrl env body
    obtain ⟨f1, f2, f3⟩ := routing_loopEnd hf
    refine ⟨res, hres, ?_, ?_⟩
    · intro url hu hne
      subst hu
      obtain ⟨h1, h2⟩ := routing_lines_configured url hne env lines 0
      rw [he]
      simp only [postsOf, printedOf, dataOf, frames, List.filterMap_append, List.map_append]
        at *
      rw [h1, h2, f1, f2, f3]
      simp
    · intro hu
      obtain ⟨h1, h2⟩ := routing_lines_unconfigured tunnelUrl hu env lines 0
      rw [he]
      simp only [postsOf, printedOf, dataOf, frames, List.filterMap_append] at *
      rw [h1, h2, f1, f2, f3]
      exact ⟨rfl, rfl⟩

/-- C4 fails as stated: with the forwarding URL `://localhost:3000`, which has no scheme,
the line `data: x` is a `Data` frame and `http.Post` is called for it once, but the call
fails before any request is built: no outbound POST leaves. -/
theorem forward_without_request :
    ∃ res,
      relay (some "://localhost:3000") (fun _ => .failed 0)
        [.data (utf8 "data: x\n"), .fail .EOF] = some res ∧
      frames res.effects = [Frame.Data (utf8 "x"), Frame.End] ∧
      postsOf res.effects = [("://localhost:3000", "application/json", utf8 "x")] ∧
      requestsOf res.effects = [] :=
  ⟨_, rfl, by decide, by decide, by decide⟩

/-! ## Forwarding failures -/

/-- C6. Delivery errors are not fatal: on every transport and with every forwarding URL, two
runs that differ only in the outcomes of their forwards (for instance one whose forwards are
refused and one whose forwards succeed) both end, handle the same frames in the same order,
stand the same way at the end (returned, ended by a read error, or still reading) and have
read the same part of the stream.  So a forward that fails neither aborts the session nor
closes the stream, and the next frame is read and handled as after a forward that
succeeded.  On the stream `data: a\ndata: b\n` with every forward refused, both payloads are
posted and the completion notice follows. -/
theorem delivery_errors_nonfatal (tunnelUrl : Option String) (env1 env2 : ForwardEnv)
    (body : Transport) :
    (∃ r1 r2, relay tunnelUrl env1 body = some r1 ∧ relay tunnelUrl env2 body = some r2 ∧
      frames r1.effects = frames r2.effects ∧ postsOf r1.effects = postsOf r2.effects ∧
      r1.exit = r2.exit ∧ r1.unread = r2.unread) ∧
    relay (some "http://localhost:3000") (fun _ => .failed 111)
        [.data (utf8 "data: a\ndata: b\n"), .fail .EOF]
      = some ⟨[.post "http://localhost:3000" "application/json" (utf8 "a") (.failed 111),
               .post "http://localhost:3000" "application/json" (utf8 "b") (.failed 111),
               .printClosed], .returned, []⟩ := by
  constructor
  · obtain ⟨r1, r2, h1, h2, hf, he, hu⟩ :=
      relay_env Effect.frame (fun _ _ _ _ _ => rfl) tunnelUrl env1 env2 body
    obtain ⟨r1', r2', h1', h2', hp, _, _⟩ :=
      relay_env (fun e => match e with
        | .post url contentType body _ => some (url, contentType, body)
        | _ => none) (fun _ _ _ _ _ => rfl) tunnelUrl env1 env2 body
    rw [h1] at h1'
    rw [h2] at h2'
    cases h1'
    cases h2'
    exact ⟨r1, r2, h1, h2, hf, hp, he, hu⟩
  · decide

/-- C7, as the relay does it.  The outcome of `http.Post` is discarded: on every transport
and with every forwarding URL, the text the operator sees (standard output and the log) is
the same whatever the outcomes of the forwards are, so a forward that fails leaves no
diagnostic. -/
theorem delivery_outcome_discarded (tunnelUrl : Option String) (env1 env2 : ForwardEnv)
    (body : Transport) :
    ∃ r1 r2, relay tunnelUrl env1 body = some r1 ∧ relay tunnelUrl env2 body = some r2 ∧
      consoleOutput r1.effects = consoleOutput r2.effects := by
  obtain ⟨r1, r2, h1, h2, hc, _, _⟩ :=
    relay_env Effect.console (fun _ _ _ _ _ => rfl) tunnelUrl env1 env2 body
  exact ⟨r1, r2, h1, h2, hc⟩

/-- C7 fails as stated: with the forwarding URL set, the stream `data: x\n` and a forward
that is refused, the operator sees only the completion notice, the same text as when the
forward succeeds. -/
theorem delivery_failure_not_reported :
    ∃ r1 r2,
      relay (some "http://localhost:3000") (fun _ => .failed 111)
        [.data (utf8 "data: x\n"), .fail .EOF] = some r1 ∧
      relay (some "http://localhost:3000") (fun _ => .responded 200)
        [.data (utf8 "data: x\n"), .fail .EOF] = some r2 ∧
      postsOf r1.effects = [("http://localhost:3000", "application/json", utf8 "x")] ∧
      consoleOutput r1.effects = [.printClosed] ∧
      consoleOutput r1.effects = consoleOutput r2.effects :=
  ⟨_, _, rfl, rfl, by decide, by decide, by decide⟩

/-! ## Complete lines -/

theorem isLine_count_le (es : List Effect) :
    ((frames es).filter Frame.isLine).length ≤ es.length :=
  le_trans (List.length_filter_le _ _) (frames_length es)

/-- C8. Complete-line invariant.  On every transport the relay ends with at most as many
`Data` and `Comment` frames as the transport delivers line feeds.  The bytes after the last
line feed give no frame: if chunks that do not stall the reader deliver `s ++ rest` with no
line feed in `rest`, and the stream then ends or fails, the run is the one of the stream
that delivers `s` alone, also when `rest` starts with `data: ` or `:`. -/
theorem complete_line_invariant (tunnelUrl : Option String) (env : ForwardEnv) :
    (∀ body : Transport, ∃ res, relay tunnelUrl env body = some res ∧
      ((frames res.effects).filter Frame.isLine).length ≤ lineFeeds body) ∧
    (∀ (s rest : List Byte) (chunks : List (List Byte)) (e : IOError) (post : Transport),
      10 ∉ rest → chunks.flatten = s ++ rest → stallFree chunks = true →
      relay tunnelUrl env (dataReads chunks ++ .fail e :: post)
        = relay tunnelUrl env (.data s :: .fail e :: post)) ∧
    relay tunnelUrl env [.data (utf8 "data: x"), .fail .EOF]
      = some ⟨[.printClosed], .returned, []⟩ ∧
    relay tunnelUrl env [.data (utf8 ":x"), .fail (.other 104)]
      = some ⟨[.fatal (.readingStream (.other 104))], .exited, []⟩ := by
  refine ⟨?_, ?_, ?_, ?_⟩
  · intro body
    obtain ⟨res, lines, fin, hres, he, hf, hl⟩ := relay_effects tunnelUrl env body
    refine ⟨res, hres, ?_⟩
    rw [he, frames_append, List.filter_append, isLine_frames_loopEnd hf, List.append_nil]
    exact le_trans (isLine_count_le _) (le_trans (linesEffects_length_le _ _ _ _) hl)
  · intro s rest chunks e post hr hc hp
    have ht : ∃ res, tailResult (.fail e :: post) = some res := by
      by_cases he : e = IOError.EOF
      · exact ⟨⟨[.printClosed], .returned, post⟩, by simp [tailResult, he]⟩
      · exact ⟨⟨[.fatal (.readingStream e)], .exited, post⟩, by simp [tailResult, he]⟩
    obtain ⟨res, ht⟩ := ht
    have h1 := relay_chunks tunnelUrl env chunks (.fail e :: post) res hp ht
    have hs : stallFree [s] = true := by
      rcases s with _ | ⟨b, p⟩ <;> rfl
    have h2 := relay_chunks tunnelUrl env [s] (.fail e :: post) res hs ht
    rw [hc, completeLines_append_of_not_mem s hr] at h1
    simp only [List.flatten_cons, List.flatten_nil, List.append_nil] at h2
    rw [h1]
    exact h2.symm
  · exact (relay_chunks tunnelUrl env [utf8 "data: x"] [.fail .EOF] _ (by decide) rfl).trans
      (by rfl)
  · exact (relay_chunks tunnelUrl env [utf8 ":x"] [.fail (.other 104)] _ (by decide)
      rfl).trans (by rfl)

/-! ## Release of the transport -/

/-- C9, on the code.  The deferred `resp.Body.Close()` runs once when the stream ends
cleanly, but on a non-200 status and on a read error `log.Fatalf` ends the process and the
body is not closed by the relay at all. -/
theorem body_closed_only_on_clean_end :
    (∃ res, webhook.Run none (fun _ => .responded 200) (.response 200 [.fail .EOF]) = some res ∧
      res.exit = .returned ∧ closes res.effects = 1) ∧
    (∃ res, webhook.Run none (fun _ => .responded 200) (.response 500 []) = some res ∧
      res.effects = [.fatal (.non200 500)] ∧ res.exit = .exited ∧ closes res.effects = 0) ∧
    (∃ res, webhook.Run none (fun _ => .responded 200)
        (.response 200 [.data (utf8 "data: x\n"), .fail (.other 104)]) = some res ∧
      res.effects = [.printMessage (utf8 "x"), .fatal (.readingStream (.other 104))] ∧
      res.exit = .exited ∧ closes res.effects = 0) :=
  ⟨⟨_, rfl, by decide, by decide⟩, ⟨_, rfl, by decide, by decide, by decide⟩,
    ⟨_, rfl, by decide, by decide, by decide⟩⟩

/-! ## Empty payloads -/

/-- C10. White space is trimmed from the whole line before the prefix test.  A line that is
`data: ` followed by white space only (`data: \n` and `data: \r\n` among them) has no effect
at all.  Every `Data` frame of a line, and so every `Data` frame of every run on any
transport, has a payload that is not empty and does not end in white space.  Leading white
space after the prefix is kept: `data:   x\n` gives the payload `  x`. -/
theorem empty_payload_dropped (tunnelUrl : Option String) (env : ForwardEnv)
    (outcome : PostOutcome) :
    (∀ rs : List (List Byte), (∀ r ∈ rs, isSpaceRune r = true) →
      processLine tunnelUrl outcome (dataPrefix ++ rs.flatten) = []) ∧
    processLine tunnelUrl outcome (utf8 "data: \n") = [] ∧
    processLine tunnelUrl outcome (utf8 "data: \r\n") = [] ∧
    (∀ line d, Frame.Data d ∈ frames (processLine tunnelUrl outcome line) →
      d ≠ [] ∧ endsWithSpace d = false) ∧
    (∀ body : Transport, ∃ res, relay tunnelUrl env body = some res ∧
      ∀ d, Frame.Data d ∈ frames res.effects → d ≠ [] ∧ endsWithSpace d = false) ∧
    frames (processLine tunnelUrl outcome (utf8 "data:   x\n")) = [Frame.Data (utf8 "  x")] := by
  refine ⟨?_, ?_, ?_, ?_, ?_, ?_⟩
  · intro rs hrs
    apply processLine_eq_nil
    · rw [TrimSpace_dataPrefix_space rs hrs]; decide
    · rw [TrimSpace_dataPrefix_space rs hrs]; decide
  · exact processLine_eq_nil _ _ (by decide) (by decide)
  · exact processLine_eq_nil _ _ (by decide) (by decide)
  · intro line d hd
    exact payload_trimmed hd
  · intro body
    obtain ⟨res, lines, fin, hres, he, hf, _⟩ := relay_effects tunnelUrl env body
    refine ⟨res, hres, ?_⟩
    intro d hd
    rw [he, frames_append, List.mem_append] at hd
    rcases hd with hd | hd
    · obtain ⟨o, line, h⟩ := mem_frames_linesEffects hd
      exact payload_trimmed h
    · exact absurd hd (data_not_mem_frames_loopEnd hf d)
  · rw [frames_processLine]; decide

end NylasCli
